import Mathlib

/-!
Verification of the Minesweeper knowledge-based inference engine
(`Sentence` / `MinesweeperAI` from minesweeper.py).

Cells are pairs of natural-number coordinates.  A `Sentence` is a set of
cells together with a mine count (Python int, modelled as `ℤ`).  The
`MinesweeperAI` state holds the three derived cell sets and the knowledge
list.  Python's unordered-set iteration (when applying collected marks) is
modelled by iterating the set in a fixed total order; the resulting state
does not depend on the order, since distinct cells are erased and counted
independently.

The unbounded `while True` fixpoint loop of `add_knowledge` is modelled by
`loopFuel` (one iteration per fuel unit) together with the computable fuel
bound `loopFuelBound`; the development proves that this bound always
suffices, so `runLoop` (and hence `add_knowledge`) agrees with the
unbounded loop.
-/

set_option maxRecDepth 20000

abbrev Cell : Type := ℕ × ℕ

/-- Enumerate the cells of a finite set as a list in row-major order
(scanning a square that covers the set).  This fixes one concrete
iteration order for Python's unordered-set iteration. -/
def sortedCells (s : Finset Cell) : List Cell :=
  let b := s.sup (fun c => max c.1 c.2) + 1
  ((List.range b).flatMap (fun i => (List.range b).map (fun j => (i, j)))).filter
    (fun c => decide (c ∈ s))

/-- `Sentence(cells, count)`: a set of board cells and a count of how many
of them are mines.  Equality compares the cell set and the count, matching
Python's `__eq__`. -/
structure Sentence where
  cells : Finset Cell
  count : ℤ
deriving DecidableEq

namespace Sentence

/-- `Sentence.known_mines`: `self.cells` if `len(self.cells) == self.count`,
else the empty set. -/
def known_mines (s : Sentence) : Finset Cell :=
  if (s.cells.card : ℤ) = s.count then s.cells else ∅

/-- `Sentence.known_safes`: `self.cells` if `self.count == 0`, else the
empty set. -/
def known_safes (s : Sentence) : Finset Cell :=
  if s.count = 0 then s.cells else ∅

/-- `Sentence.mark_mine`: if the cell is present, remove it and decrement
the count. -/
def mark_mine (cell : Cell) (s : Sentence) : Sentence :=
  if cell ∈ s.cells then ⟨s.cells.erase cell, s.count - 1⟩ else s

/-- `Sentence.mark_safe`: if the cell is present, remove it, leaving the
count unchanged. -/
def mark_safe (cell : Cell) (s : Sentence) : Sentence :=
  if cell ∈ s.cells then ⟨s.cells.erase cell, s.count⟩ else s

/-- The predicate of `clean_up_knowledge`: a sentence is kept when its cell
set is non-empty, its count is non-zero, and the count does not exceed the
number of cells. -/
def valid (s : Sentence) : Prop :=
  s.cells.card ≠ 0 ∧ s.count ≠ 0 ∧ s.count ≤ (s.cells.card : ℤ)

instance : DecidablePred valid := fun s => by
  unfold valid; infer_instance

end Sentence

/-- The `MinesweeperAI` state: board dimensions, the cells already clicked,
the cells known to be mines or safe, and the knowledge list. -/
structure MinesweeperAI where
  height : ℕ
  width : ℕ
  moves_made : Finset Cell
  mines : Finset Cell
  safes : Finset Cell
  knowledge : List Sentence
deriving DecidableEq

/-- `MinesweeperAI.__init__`: empty derived sets, empty knowledge. -/
def initAI (height width : ℕ) : MinesweeperAI :=
  ⟨height, width, ∅, ∅, ∅, []⟩

namespace MinesweeperAI

/-- `MinesweeperAI.mark_mine`: add the cell to `mines` and forward
`mark_mine` to every sentence in `knowledge`. -/
def mark_mine (cell : Cell) (ai : MinesweeperAI) : MinesweeperAI :=
  { ai with
    mines := insert cell ai.mines
    knowledge := ai.knowledge.map (Sentence.mark_mine cell) }

/-- `MinesweeperAI.mark_safe`: add the cell to `safes` and forward
`mark_safe` to every sentence in `knowledge`. -/
def mark_safe (cell : Cell) (ai : MinesweeperAI) : MinesweeperAI :=
  { ai with
    safes := insert cell ai.safes
    knowledge := ai.knowledge.map (Sentence.mark_safe cell) }

/-- `MinesweeperAI.clean_up_knowledge`: keep only the sentences with a
non-empty cell set, a non-zero count, and `count <= len(cells)`. -/
def clean_up_knowledge (ai : MinesweeperAI) : MinesweeperAI :=
  { ai with knowledge := ai.knowledge.filter (fun s => decide s.valid) }

/-- The list of new sentences collected by `infer_from_subset`: for every
ordered pair of distinct sentences with `sentence1.cells ⊆ sentence2.cells`,
the difference sentence, provided its count is non-negative, its cell set
is non-empty, and no equal sentence is already in `knowledge`. -/
def inferNew (K : List Sentence) : List Sentence :=
  K.flatMap (fun s1 =>
    K.filterMap (fun s2 =>
      if s1 ≠ s2 ∧ s1.cells ⊆ s2.cells ∧
          0 ≤ s2.count - s1.count ∧ (s2.cells \ s1.cells).Nonempty ∧
          Sentence.mk (s2.cells \ s1.cells) (s2.count - s1.count) ∉ K then
        some (Sentence.mk (s2.cells \ s1.cells) (s2.count - s1.count))
      else none))

/-- `MinesweeperAI.infer_from_subset`: extend `knowledge` with the newly
inferred sentences. -/
def infer_from_subset (ai : MinesweeperAI) : MinesweeperAI :=
  { ai with knowledge := ai.knowledge ++ inferNew ai.knowledge }

/-- The mines to mark in one pass of the fixpoint loop: the union over all
sentences of `known_mines()`, restricted to cells not already in `mines`. -/
def minesToMark (ai : MinesweeperAI) : Finset Cell :=
  ai.knowledge.foldl (fun acc s => acc ∪ (s.known_mines \ ai.mines)) ∅

/-- The safes to mark in one pass of the fixpoint loop: the union over all
sentences of `known_safes()`, restricted to cells not already in `safes`. -/
def safesToMark (ai : MinesweeperAI) : Finset Cell :=
  ai.knowledge.foldl (fun acc s => acc ∪ (s.known_safes \ ai.safes)) ∅

/-- Apply `MinesweeperAI.mark_mine` for every cell of a list in turn. -/
def applyMines (l : List Cell) (ai : MinesweeperAI) : MinesweeperAI :=
  l.foldl (fun t c => t.mark_mine c) ai

/-- Apply `MinesweeperAI.mark_safe` for every cell of a list in turn. -/
def applySafes (l : List Cell) (ai : MinesweeperAI) : MinesweeperAI :=
  l.foldl (fun t c => t.mark_safe c) ai

/-- The marking phase of one loop pass: collect `minesToMark` and
`safesToMark` from the current state, then apply all the mine marks
followed by all the safe marks. -/
def markPhase (ai : MinesweeperAI) : MinesweeperAI :=
  applySafes (sortedCells (safesToMark ai))
    (applyMines (sortedCells (minesToMark ai)) ai)

/-- The state after one full pass of the fixpoint loop: marking phase, then
`infer_from_subset`, then `clean_up_knowledge`. -/
def passState (ai : MinesweeperAI) : MinesweeperAI :=
  (infer_from_subset (markPhase ai)).clean_up_knowledge

/-- The `knowledge_changed` flag of one pass: true when something was
marked, or when the knowledge length after infer + cleanup differs from the
length before. -/
def passChanged (ai : MinesweeperAI) : Bool :=
  (decide (minesToMark ai ≠ ∅) || decide (safesToMark ai ≠ ∅)) ||
    decide ((passState ai).knowledge.length ≠ (markPhase ai).knowledge.length)

/-- The `while True` loop of `add_knowledge`, cut off after `fuel`
iterations: run one pass; stop when the pass reports no change. -/
def loopFuel : ℕ → MinesweeperAI → Option MinesweeperAI
  | 0, _ => none
  | n + 1, ai =>
    if passChanged ai then loopFuel n (passState ai) else some (passState ai)

/-- Union of the cell sets of all sentences in a knowledge list. -/
def kCells (K : List Sentence) : Finset Cell :=
  K.foldr (fun s acc => s.cells ∪ acc) ∅

/-- All cells mentioned anywhere in the state: known mines, known safes,
and every sentence's cells.  This set never grows during a loop pass. -/
def cellU (ai : MinesweeperAI) : Finset Cell :=
  ai.mines ∪ ai.safes ∪ kCells ai.knowledge

/-- Termination measure, marking part: cells of `cellU` not yet in `mines`
plus cells not yet in `safes`.  Strictly decreases on any pass that marks
something. -/
def markMeasure (ai : MinesweeperAI) : ℕ :=
  (cellU ai \ ai.mines).card + (cellU ai \ ai.safes).card

/-- A computable fuel bound for the fixpoint loop, proved sufficient in
`loopFuel_bound_isSome`. -/
def loopFuelBound (ai : MinesweeperAI) : ℕ :=
  2 + (markMeasure ai + 2) * (2 ^ (cellU ai).card * (cellU ai).card + 2)

/-- The fixpoint loop, run to completion (the fuel bound always suffices). -/
def runLoop (ai : MinesweeperAI) : MinesweeperAI :=
  (loopFuel (loopFuelBound ai) ai).getD ai

/-- The Moore neighborhood of a cell clipped to the board, excluding the
cell itself: `range(max(0, i-1), min(height, i+2)) ×
range(max(0, j-1), min(width, j+2))` minus the cell. -/
def neighborCells (height width : ℕ) (cell : Cell) : Finset Cell :=
  ((Finset.Ico (cell.1 - 1) (min height (cell.1 + 2))) ×ˢ
      (Finset.Ico (cell.2 - 1) (min width (cell.2 + 2)))).filter
    (fun c => c ≠ cell)

/-- Steps 1-5 of `add_knowledge`, before the fixpoint loop: record the
move, mark the cell safe, build the filtered neighborhood, compute the
adjusted count, and append the new sentence when the neighborhood is
non-empty. -/
def addKnowledgePre (cell : Cell) (count : ℤ) (ai : MinesweeperAI) :
    MinesweeperAI :=
  let ai1 := { ai with moves_made := insert cell ai.moves_made }
  let ai2 := ai1.mark_safe cell
  let nc := (neighborCells ai.height ai.width cell).filter
    (fun c => c ∉ ai2.safes ∧ c ∉ ai2.mines)
  let mine_count : ℤ := count - ((nc.filter (fun c => c ∈ ai2.mines)).card : ℤ)
  if nc = ∅ then ai2
  else { ai2 with knowledge := ai2.knowledge ++ [Sentence.mk nc mine_count] }

/-- `MinesweeperAI.add_knowledge`: the pre-loop steps followed by the
fixpoint loop run to exhaustion. -/
def add_knowledge (cell : Cell) (count : ℤ) (ai : MinesweeperAI) :
    MinesweeperAI :=
  runLoop (addKnowledgePre cell count ai)

/-- `MinesweeperAI.make_safe_move`: some safe cell not yet played, or
none.  Python iterates `self.safes` in unordered-set order; the iteration
is modelled in the fixed cell order. -/
def make_safe_move (ai : MinesweeperAI) : Option Cell :=
  (sortedCells ai.safes).find? (fun c => decide (c ∉ ai.moves_made))

/-- The candidate list of `make_random_move`: all board cells, row-major,
that are neither played nor known mines. -/
def available_moves (ai : MinesweeperAI) : List Cell :=
  ((List.range ai.height).flatMap
      (fun i => (List.range ai.width).map (fun j => (i, j)))).filter
    (fun c => decide (c ∉ ai.moves_made) && decide (c ∉ ai.mines))

/-- `MinesweeperAI.make_random_move` with the random choice injected as an
index into the candidate list. -/
def make_random_move (k : ℕ) (ai : MinesweeperAI) : Option Cell :=
  let ms := available_moves ai
  if ms.isEmpty then none else ms.get? (k % ms.length)

end MinesweeperAI

/-- One public call on the engine.  The two move-selector queries return a
cell without assigning to any state field, so they leave the state
untouched. -/
inductive EngineCall where
  | markMineC (c : Cell)
  | markSafeC (c : Cell)
  | addKnowledgeC (c : Cell) (n : ℤ)
  | safeMoveC
  | randomMoveC (k : ℕ)

/-- Apply one public call to the state. -/
def applyCall (call : EngineCall) (ai : MinesweeperAI) : MinesweeperAI :=
  match call with
  | .markMineC c => ai.mark_mine c
  | .markSafeC c => ai.mark_safe c
  | .addKnowledgeC c n => ai.add_knowledge c n
  | .safeMoveC => ai
  | .randomMoveC _ => ai

/-- Run a sequence of public calls from a fresh engine. -/
def runCalls (height width : ℕ) (calls : List EngineCall) : MinesweeperAI :=
  calls.foldl (fun ai c => applyCall c ai) (initAI height width)

/-- The finite universe of sentences over a cell set `u` that survive
cleanup: non-empty cells included in `u` and a count between 1 and the
number of cells. -/
def SUof (u : Finset Cell) : Finset Sentence :=
  ((u.powerset ×ˢ Finset.Icc (1 : ℤ) (u.card)).filter
      (fun p => p.2 ≤ (p.1.card : ℤ))).image
    (fun p => Sentence.mk p.1 p.2)

/-- Termination measure, knowledge part: valid sentences over the state's
cell universe that are not yet present in `knowledge`. -/
def phiMeasure (ai : MinesweeperAI) : ℕ :=
  (SUof (MinesweeperAI.cellU ai) \ ai.knowledge.toFinset).card

/-- 1 when some sentence in `knowledge` would be removed by cleanup, else
0.  Every pass ends with a cleanup, so this is 0 after any pass. -/
def cleanBit (ai : MinesweeperAI) : ℕ :=
  if ∀ s ∈ ai.knowledge, s.valid then 0 else 1

/-- The full termination measure of the fixpoint loop: strictly decreases
across any pass whose `knowledge_changed` flag is true. -/
def fuelOf (ai : MinesweeperAI) : ℕ :=
  1 + cleanBit ai +
    (MinesweeperAI.markMeasure ai + 1) *
      ((SUof (MinesweeperAI.cellU ai)).card + 1) +
    phiMeasure ai

/-! ### Basic lemmas about sentences and cell unions -/

namespace Sentence

theorem mark_mine_cells_subset (c : Cell) (s : Sentence) :
    (s.mark_mine c).cells ⊆ s.cells := by
  unfold mark_mine
  split
  · exact Finset.erase_subset _ _
  · exact Finset.Subset.refl _

theorem mark_safe_cells_subset (c : Cell) (s : Sentence) :
    (s.mark_safe c).cells ⊆ s.cells := by
  unfold mark_safe
  split
  · exact Finset.erase_subset _ _
  · exact Finset.Subset.refl _

theorem known_mines_subset (s : Sentence) : s.known_mines ⊆ s.cells := by
  unfold known_mines
  split
  · exact Finset.Subset.refl _
  · exact Finset.empty_subset _

theorem known_safes_subset (s : Sentence) : s.known_safes ⊆ s.cells := by
  unfold known_safes
  split
  · exact Finset.Subset.refl _
  · exact Finset.empty_subset _

end Sentence

namespace MinesweeperAI

theorem kCells_cons {K : List Sentence} {s : Sentence} :
    kCells (s :: K) = s.cells ∪ kCells K := rfl

theorem mem_kCells {K : List Sentence} {x : Cell} :
    x ∈ kCells K ↔ ∃ s ∈ K, x ∈ s.cells := by
  induction K with
  | nil => simp [kCells]
  | cons s K ih =>
    rw [kCells_cons, Finset.mem_union, ih]
    simp

theorem cells_subset_kCells {K : List Sentence} {s : Sentence} (hs : s ∈ K) :
    s.cells ⊆ kCells K :=
  fun _ hx => mem_kCells.mpr ⟨s, hs, hx⟩

theorem kCells_map_subset {K : List Sentence} {f : Sentence → Sentence}
    (hf : ∀ s, (f s).cells ⊆ s.cells) : kCells (K.map f) ⊆ kCells K := by
  intro x hx
  obtain ⟨s, hs, hx⟩ := mem_kCells.mp hx
  obtain ⟨t, ht, rfl⟩ := List.mem_map.mp hs
  exact mem_kCells.mpr ⟨t, ht, hf t hx⟩

theorem kCells_filter_subset {K : List Sentence} {p : Sentence → Bool} :
    kCells (K.filter p) ⊆ kCells K := by
  intro x hx
  obtain ⟨s, hs, hx⟩ := mem_kCells.mp hx
  exact mem_kCells.mpr ⟨s, (List.mem_filter.mp hs).1, hx⟩

theorem kCells_append {K L : List Sentence} :
    kCells (K ++ L) = kCells K ∪ kCells L := by
  induction K with
  | nil => simp [kCells]
  | cons s K ih => rw [List.cons_append, kCells_cons, kCells_cons, ih, Finset.union_assoc]

theorem mem_inferNew {K : List Sentence} {v : Sentence} (h : v ∈ inferNew K) :
    v ∉ K ∧ 0 ≤ v.count ∧ v.cells.Nonempty ∧ v.cells ⊆ kCells K := by
  unfold inferNew at h
  obtain ⟨s1, hs1, h⟩ := List.mem_flatMap.mp h
  obtain ⟨s2, hs2, h⟩ := List.mem_filterMap.mp h
  split at h
  case isTrue hc =>
    obtain rfl : Sentence.mk (s2.cells \ s1.cells) (s2.count - s1.count) = v :=
      Option.some.inj h
    exact ⟨hc.2.2.2.2, hc.2.2.1, hc.2.2.2.1,
      (Finset.sdiff_subset).trans (cells_subset_kCells hs2)⟩
  case isFalse => exact absurd h (by simp)

theorem foldl_union_mem (K : List Sentence) (f : Sentence → Finset Cell)
    (acc : Finset Cell) (x : Cell) :
    x ∈ K.foldl (fun a s => a ∪ f s) acc ↔ x ∈ acc ∨ ∃ s ∈ K, x ∈ f s := by
  induction K generalizing acc with
  | nil => simp
  | cons s K ih =>
    rw [List.foldl_cons, ih]
    simp [Finset.mem_union, or_assoc]

theorem mem_minesToMark {ai : MinesweeperAI} {x : Cell} :
    x ∈ minesToMark ai ↔
      (∃ s ∈ ai.knowledge, x ∈ s.known_mines) ∧ x ∉ ai.mines := by
  unfold minesToMark
  rw [foldl_union_mem]
  simp [Finset.mem_sdiff]
  tauto

theorem mem_safesToMark {ai : MinesweeperAI} {x : Cell} :
    x ∈ safesToMark ai ↔
      (∃ s ∈ ai.knowledge, x ∈ s.known_safes) ∧ x ∉ ai.safes := by
  unfold safesToMark
  rw [foldl_union_mem]
  simp [Finset.mem_sdiff]
  tauto

theorem minesToMark_subset_kCells (ai : MinesweeperAI) :
    minesToMark ai ⊆ kCells ai.knowledge := by
  intro x hx
  obtain ⟨⟨s, hs, hx⟩, -⟩ := mem_minesToMark.mp hx
  exact cells_subset_kCells hs (s.known_mines_subset hx)

theorem safesToMark_subset_kCells (ai : MinesweeperAI) :
    safesToMark ai ⊆ kCells ai.knowledge := by
  intro x hx
  obtain ⟨⟨s, hs, hx⟩, -⟩ := mem_safesToMark.mp hx
  exact cells_subset_kCells hs (s.known_safes_subset hx)

theorem mem_sortedCells {s : Finset Cell} {c : Cell} :
    c ∈ sortedCells s ↔ c ∈ s := by
  unfold sortedCells
  simp only [List.mem_filter, List.mem_flatMap, List.mem_map, List.mem_range,
    decide_eq_true_eq]
  constructor
  · exact fun h => h.2
  · intro h
    have h1 : max c.1 c.2 ≤ s.sup (fun c : Cell => max c.1 c.2) :=
      Finset.le_sup (f := fun c : Cell => max c.1 c.2) h
    have h2 : c.1 ≤ max c.1 c.2 := le_max_left _ _
    have h3 : c.2 ≤ max c.1 c.2 := le_max_right _ _
    exact ⟨⟨c.1, by omega, c.2, by omega, rfl⟩, h⟩

theorem toFinset_sortedCells (s : Finset Cell) :
    (sortedCells s).toFinset = s := by
  apply Finset.ext
  intro c
  rw [List.mem_toFinset, mem_sortedCells]

end MinesweeperAI

/-! ### Effect of the marking phase on the state fields -/

namespace MinesweeperAI

theorem applyMines_mines (l : List Cell) (ai : MinesweeperAI) :
    (applyMines l ai).mines = ai.mines ∪ l.toFinset := by
  induction l generalizing ai with
  | nil => simp [applyMines]
  | cons c l ih =>
    rw [applyMines, List.foldl_cons, ← applyMines, ih]
    simp [mark_mine, Finset.union_insert, Finset.insert_union]

theorem applyMines_safes (l : List Cell) (ai : MinesweeperAI) :
    (applyMines l ai).safes = ai.safes := by
  induction l generalizing ai with
  | nil => rfl
  | cons c l ih => rw [applyMines, List.foldl_cons, ← applyMines, ih]; rfl

theorem applyMines_moves (l : List Cell) (ai : MinesweeperAI) :
    (applyMines l ai).moves_made = ai.moves_made := by
  induction l generalizing ai with
  | nil => rfl
  | cons c l ih => rw [applyMines, List.foldl_cons, ← applyMines, ih]; rfl

theorem applyMines_kCells (l : List Cell) (ai : MinesweeperAI) :
    kCells (applyMines l ai).knowledge ⊆ kCells ai.knowledge := by
  induction l generalizing ai with
  | nil => exact Finset.Subset.refl _
  | cons c l ih =>
    rw [applyMines, List.foldl_cons, ← applyMines]
    exact (ih _).trans (kCells_map_subset (Sentence.mark_mine_cells_subset c))

theorem applySafes_safes (l : List Cell) (ai : MinesweeperAI) :
    (applySafes l ai).safes = ai.safes ∪ l.toFinset := by
  induction l generalizing ai with
  | nil => simp [applySafes]
  | cons c l ih =>
    rw [applySafes, List.foldl_cons, ← applySafes, ih]
    simp [mark_safe, Finset.union_insert, Finset.insert_union]

theorem applySafes_mines (l : List Cell) (ai : MinesweeperAI) :
    (applySafes l ai).mines = ai.mines := by
  induction l generalizing ai with
  | nil => rfl
  | cons c l ih => rw [applySafes, List.foldl_cons, ← applySafes, ih]; rfl

theorem applySafes_moves (l : List Cell) (ai : MinesweeperAI) :
    (applySafes l ai).moves_made = ai.moves_made := by
  induction l generalizing ai with
  | nil => rfl
  | cons c l ih => rw [applySafes, List.foldl_cons, ← applySafes, ih]; rfl

theorem applySafes_kCells (l : List Cell) (ai : MinesweeperAI) :
    kCells (applySafes l ai).knowledge ⊆ kCells ai.knowledge := by
  induction l generalizing ai with
  | nil => exact Finset.Subset.refl _
  | cons c l ih =>
    rw [applySafes, List.foldl_cons, ← applySafes]
    exact (ih _).trans (kCells_map_subset (Sentence.mark_safe_cells_subset c))

theorem markPhase_mines (ai : MinesweeperAI) :
    (markPhase ai).mines = ai.mines ∪ minesToMark ai := by
  rw [markPhase, applySafes_mines, applyMines_mines, toFinset_sortedCells]

theorem markPhase_safes (ai : MinesweeperAI) :
    (markPhase ai).safes = ai.safes ∪ safesToMark ai := by
  rw [markPhase, applySafes_safes, applyMines_safes, toFinset_sortedCells]

theorem markPhase_moves (ai : MinesweeperAI) :
    (markPhase ai).moves_made = ai.moves_made := by
  rw [markPhase, applySafes_moves, applyMines_moves]

theorem markPhase_kCells (ai : MinesweeperAI) :
    kCells (markPhase ai).knowledge ⊆ kCells ai.knowledge :=
  (applySafes_kCells _ _).trans (applyMines_kCells _ _)

theorem markPhase_cellU (ai : MinesweeperAI) :
    cellU (markPhase ai) ⊆ cellU ai := by
  intro x hx
  rw [cellU, markPhase_mines, markPhase_safes] at hx
  rw [cellU]
  simp only [Finset.mem_union] at hx ⊢
  rcases hx with ((hx | hx) | (hx | hx)) | hx
  · exact Or.inl (Or.inl hx)
  · exact Or.inr (minesToMark_subset_kCells ai hx)
  · exact Or.inl (Or.inr hx)
  · exact Or.inr (safesToMark_subset_kCells ai hx)
  · exact Or.inr (markPhase_kCells ai hx)

theorem passState_knowledge (ai : MinesweeperAI) :
    (passState ai).knowledge =
      ((markPhase ai).knowledge ++ inferNew (markPhase ai).knowledge).filter
        (fun s => decide s.valid) := rfl

theorem clean_up_mines (ai : MinesweeperAI) : (clean_up_knowledge ai).mines = ai.mines := rfl

theorem clean_up_safes (ai : MinesweeperAI) : (clean_up_knowledge ai).safes = ai.safes := rfl

theorem clean_up_moves (ai : MinesweeperAI) :
    (clean_up_knowledge ai).moves_made = ai.moves_made := rfl

theorem infer_mines (ai : MinesweeperAI) : (infer_from_subset ai).mines = ai.mines := rfl

theorem infer_safes (ai : MinesweeperAI) : (infer_from_subset ai).safes = ai.safes := rfl

theorem infer_moves (ai : MinesweeperAI) :
    (infer_from_subset ai).moves_made = ai.moves_made := rfl

theorem passState_mines (ai : MinesweeperAI) :
    (passState ai).mines = ai.mines ∪ minesToMark ai := by
  rw [passState, clean_up_mines, infer_mines, markPhase_mines]

theorem passState_safes (ai : MinesweeperAI) :
    (passState ai).safes = ai.safes ∪ safesToMark ai := by
  rw [passState, clean_up_safes, infer_safes, markPhase_safes]

theorem passState_moves (ai : MinesweeperAI) :
    (passState ai).moves_made = ai.moves_made := by
  rw [passState, clean_up_moves, infer_moves, markPhase_moves]

theorem pass_mines_mono (ai : MinesweeperAI) : ai.mines ⊆ (passState ai).mines := by
  rw [passState_mines]; exact Finset.subset_union_left

theorem pass_safes_mono (ai : MinesweeperAI) : ai.safes ⊆ (passState ai).safes := by
  rw [passState_safes]; exact Finset.subset_union_left

theorem passState_kCells (ai : MinesweeperAI) :
    kCells (passState ai).knowledge ⊆ kCells ai.knowledge := by
  rw [passState_knowledge]
  refine kCells_filter_subset.trans ?_
  rw [kCells_append]
  refine Finset.union_subset (markPhase_kCells ai) ?_
  intro x hx
  obtain ⟨s, hs, hx⟩ := mem_kCells.mp hx
  exact markPhase_kCells ai ((mem_inferNew hs).2.2.2 hx)

theorem passState_cellU (ai : MinesweeperAI) :
    cellU (passState ai) ⊆ cellU ai := by
  intro x hx
  rw [cellU, passState_mines, passState_safes] at hx
  rw [cellU]
  simp only [Finset.mem_union] at hx ⊢
  rcases hx with ((hx | hx) | (hx | hx)) | hx
  · exact Or.inl (Or.inl hx)
  · exact Or.inr (minesToMark_subset_kCells ai hx)
  · exact Or.inl (Or.inr hx)
  · exact Or.inr (safesToMark_subset_kCells ai hx)
  · exact Or.inr (passState_kCells ai hx)

theorem passState_clean (ai : MinesweeperAI) :
    ∀ s ∈ (passState ai).knowledge, s.valid := by
  intro s hs
  rw [passState_knowledge] at hs
  have := (List.mem_filter.mp hs).2
  exact of_decide_eq_true this

end MinesweeperAI

/-! ### The sentence universe and the termination measure -/

open MinesweeperAI

theorem mem_SUof {u : Finset Cell} {v : Sentence} :
    v ∈ SUof u ↔ v.cells ⊆ u ∧ 1 ≤ v.count ∧ v.count ≤ (v.cells.card : ℤ) := by
  unfold SUof
  simp only [Finset.mem_image, Finset.mem_filter, Finset.mem_product,
    Finset.mem_powerset, Finset.mem_Icc]
  constructor
  · rintro ⟨⟨c0, n0⟩, ⟨⟨⟨hsub, h1, h2⟩, hle⟩, rfl⟩⟩
    exact ⟨hsub, h1, hle⟩
  · rintro ⟨hsub, h1, h2⟩
    refine ⟨(v.cells, v.count), ⟨⟨⟨hsub, h1, ?_⟩, h2⟩, ?_⟩⟩
    · exact h2.trans (by exact_mod_cast Finset.card_le_card hsub)
    · cases v; rfl

theorem SUof_mono {u1 u2 : Finset Cell} (h : u1 ⊆ u2) : SUof u1 ⊆ SUof u2 := by
  intro v hv
  rw [mem_SUof] at hv ⊢
  exact ⟨hv.1.trans h, hv.2⟩

theorem SUof_valid {u : Finset Cell} {v : Sentence} (h : v ∈ SUof u) : v.valid := by
  rw [mem_SUof] at h
  obtain ⟨-, h1, h2⟩ := h
  have h3 : 1 ≤ (v.cells.card : ℤ) := le_trans h1 h2
  have h4 : 1 ≤ v.cells.card := by exact_mod_cast h3
  exact ⟨by omega, by omega, h2⟩

theorem SUof_card_le (u : Finset Cell) : (SUof u).card ≤ 2 ^ u.card * u.card := by
  refine Finset.card_image_le.trans ?_
  refine (Finset.card_filter_le _ _).trans ?_
  rw [Finset.card_product, Finset.card_powerset, Int.card_Icc]
  have h : ((u.card : ℤ) + 1 - 1).toNat = u.card := by omega
  rw [h]

theorem phi_le_card (ai : MinesweeperAI) :
    phiMeasure ai ≤ (SUof (cellU ai)).card := by
  rw [phiMeasure]
  exact Finset.card_le_card Finset.sdiff_subset

theorem markMeasure_le {ai' ai : MinesweeperAI} (hU : cellU ai' ⊆ cellU ai)
    (hm : ai.mines ⊆ ai'.mines) (hs : ai.safes ⊆ ai'.safes) :
    markMeasure ai' ≤ markMeasure ai := by
  rw [markMeasure, markMeasure]
  exact Nat.add_le_add (Finset.card_le_card (Finset.sdiff_subset_sdiff hU hm))
    (Finset.card_le_card (Finset.sdiff_subset_sdiff hU hs))

theorem markMeasure_lt_of_marks (ai : MinesweeperAI)
    (h : minesToMark ai ≠ ∅ ∨ safesToMark ai ≠ ∅) :
    markMeasure (passState ai) < markMeasure ai := by
  have hU := passState_cellU ai
  rcases h with hm | hs
  · obtain ⟨c, hc⟩ := Finset.nonempty_iff_ne_empty.mpr hm
    have hcU : c ∈ cellU ai :=
      Finset.mem_union_right _ (minesToMark_subset_kCells ai hc)
    have hcm : c ∉ ai.mines := (mem_minesToMark.mp hc).2
    have hcm' : c ∈ (passState ai).mines := by
      rw [passState_mines]; exact Finset.mem_union_right _ hc
    have h1 : cellU (passState ai) \ (passState ai).mines ⊆
        (cellU ai \ ai.mines).erase c := by
      intro x hx
      rw [Finset.mem_sdiff] at hx
      refine Finset.mem_erase.mpr ⟨?_, Finset.mem_sdiff.mpr
        ⟨hU hx.1, fun hxm => hx.2 (pass_mines_mono ai hxm)⟩⟩
      rintro rfl
      exact hx.2 hcm'
    have h2 := Finset.card_le_card h1
    have h3 := Finset.card_erase_lt_of_mem (Finset.mem_sdiff.mpr ⟨hcU, hcm⟩)
    have h4 := Finset.card_le_card (Finset.sdiff_subset_sdiff hU (pass_safes_mono ai))
    rw [markMeasure, markMeasure]
    omega
  · obtain ⟨c, hc⟩ := Finset.nonempty_iff_ne_empty.mpr hs
    have hcU : c ∈ cellU ai :=
      Finset.mem_union_right _ (safesToMark_subset_kCells ai hc)
    have hcs : c ∉ ai.safes := (mem_safesToMark.mp hc).2
    have hcs' : c ∈ (passState ai).safes := by
      rw [passState_safes]; exact Finset.mem_union_right _ hc
    have h1 : cellU (passState ai) \ (passState ai).safes ⊆
        (cellU ai \ ai.safes).erase c := by
      intro x hx
      rw [Finset.mem_sdiff] at hx
      refine Finset.mem_erase.mpr ⟨?_, Finset.mem_sdiff.mpr
        ⟨hU hx.1, fun hxs => hx.2 (pass_safes_mono ai hxs)⟩⟩
      rintro rfl
      exact hx.2 hcs'
    have h2 := Finset.card_le_card h1
    have h3 := Finset.card_erase_lt_of_mem (Finset.mem_sdiff.mpr ⟨hcU, hcs⟩)
    have h4 := Finset.card_le_card (Finset.sdiff_subset_sdiff hU (pass_mines_mono ai))
    rw [markMeasure, markMeasure]
    omega

theorem cleanBit_le_one (ai : MinesweeperAI) : cleanBit ai ≤ 1 := by
  rw [cleanBit]; split <;> omega

theorem cleanBit_passState (ai : MinesweeperAI) : cleanBit (passState ai) = 0 := by
  rw [cleanBit, if_pos (passState_clean ai)]

theorem sortedCells_empty : sortedCells ∅ = [] := by
  rw [sortedCells]
  refine List.filter_eq_nil_iff.mpr ?_
  intro a _
  simp

theorem markPhase_no_marks {ai : MinesweeperAI} (h1 : minesToMark ai = ∅)
    (h2 : safesToMark ai = ∅) : markPhase ai = ai := by
  rw [markPhase, h1, h2, sortedCells_empty]
  rfl

theorem phi_sdiff_subset (ai : MinesweeperAI) (h1 : minesToMark ai = ∅)
    (h2 : safesToMark ai = ∅) :
    SUof (cellU (passState ai)) \ (passState ai).knowledge.toFinset ⊆
      SUof (cellU ai) \ ai.knowledge.toFinset := by
  intro x hx
  rw [Finset.mem_sdiff] at hx ⊢
  refine ⟨SUof_mono (passState_cellU ai) hx.1, fun hxK => hx.2 ?_⟩
  rw [List.mem_toFinset] at hxK ⊢
  rw [passState_knowledge, markPhase_no_marks h1 h2]
  exact List.mem_filter.mpr
    ⟨List.mem_append_left _ hxK, decide_eq_true (SUof_valid hx.1)⟩

theorem phi_le_of_no_marks (ai : MinesweeperAI) (h1 : minesToMark ai = ∅)
    (h2 : safesToMark ai = ∅) : phiMeasure (passState ai) ≤ phiMeasure ai := by
  rw [phiMeasure, phiMeasure]
  exact Finset.card_le_card (phi_sdiff_subset ai h1 h2)

theorem phi_lt_of_no_marks_clean (ai : MinesweeperAI) (h1 : minesToMark ai = ∅)
    (h2 : safesToMark ai = ∅) (hc : ∀ s ∈ ai.knowledge, s.valid)
    (hl : (passState ai).knowledge.length ≠ (markPhase ai).knowledge.length) :
    phiMeasure (passState ai) < phiMeasure ai := by
  have hmp : markPhase ai = ai := markPhase_no_marks h1 h2
  have hK : (passState ai).knowledge =
      ai.knowledge ++ (inferNew ai.knowledge).filter (fun s => decide s.valid) := by
    rw [passState_knowledge, hmp, List.filter_append,
      List.filter_eq_self.mpr (fun s hs => decide_eq_true (hc s hs))]
  rw [hK, hmp, List.length_append] at hl
  have hne : (inferNew ai.knowledge).filter (fun s => decide s.valid) ≠ [] := by
    intro h0; rw [h0] at hl; simp at hl
  obtain ⟨v, hv⟩ := List.exists_mem_of_ne_nil _ hne
  have hvi : v ∈ inferNew ai.knowledge := (List.mem_filter.mp hv).1
  have hvv : v.valid := of_decide_eq_true (List.mem_filter.mp hv).2
  obtain ⟨hvK, hv0, hvne, hvsub⟩ := mem_inferNew hvi
  have hvSU : v ∈ SUof (cellU ai) := by
    rw [mem_SUof]
    refine ⟨hvsub.trans ?_, ?_, hvv.2.2⟩
    · rw [cellU]; exact Finset.subset_union_right
    · have := hvv.2.1; omega
  have hvA : v ∈ SUof (cellU ai) \ ai.knowledge.toFinset :=
    Finset.mem_sdiff.mpr ⟨hvSU, fun hvm => hvK (List.mem_toFinset.mp hvm)⟩
  have hvB : v ∉ SUof (cellU (passState ai)) \ (passState ai).knowledge.toFinset := by
    rw [Finset.mem_sdiff]
    rintro ⟨-, hnot⟩
    exact hnot (List.mem_toFinset.mpr (by rw [hK]; exact List.mem_append_right _ hv))
  rw [phiMeasure, phiMeasure]
  exact Finset.card_lt_card
    ((Finset.ssubset_iff_of_subset (phi_sdiff_subset ai h1 h2)).mpr ⟨v, hvA, hvB⟩)

theorem fuelOf_lt_of_changed (ai : MinesweeperAI) (h : passChanged ai = true) :
    fuelOf (passState ai) < fuelOf ai := by
  have hS : (SUof (cellU (passState ai))).card ≤ (SUof (cellU ai)).card :=
    Finset.card_le_card (SUof_mono (passState_cellU ai))
  have hphiS : phiMeasure (passState ai) ≤ (SUof (cellU (passState ai))).card :=
    phi_le_card _
  have hcb' : cleanBit (passState ai) = 0 := cleanBit_passState ai
  by_cases hm : minesToMark ai = ∅ ∧ safesToMark ai = ∅
  · have hl : (passState ai).knowledge.length ≠ (markPhase ai).knowledge.length := by
      unfold passChanged at h
      rw [hm.1, hm.2] at h
      simpa using h
    have hMm : markMeasure (passState ai) ≤ markMeasure ai :=
      markMeasure_le (passState_cellU ai) (pass_mines_mono ai) (pass_safes_mono ai)
    have hmul : (markMeasure (passState ai) + 1) *
        ((SUof (cellU (passState ai))).card + 1) ≤
        (markMeasure ai + 1) * ((SUof (cellU ai)).card + 1) :=
      Nat.mul_le_mul (by omega) (by omega)
    by_cases hc : ∀ s ∈ ai.knowledge, s.valid
    · have hphi := phi_lt_of_no_marks_clean ai hm.1 hm.2 hc hl
      rw [fuelOf, fuelOf, hcb']
      omega
    · have hcb : cleanBit ai = 1 := by rw [cleanBit, if_neg hc]
      have hphi := phi_le_of_no_marks ai hm.1 hm.2
      rw [fuelOf, fuelOf, hcb', hcb]
      omega
  · have hlt : markMeasure (passState ai) < markMeasure ai :=
      markMeasure_lt_of_marks ai (not_and_or.mp hm)
    have hmul : (markMeasure (passState ai) + 1) *
        ((SUof (cellU (passState ai))).card + 1) ≤
        markMeasure ai * ((SUof (cellU ai)).card + 1) :=
      Nat.mul_le_mul (by omega) (by omega)
    have hexp : (markMeasure ai + 1) * ((SUof (cellU ai)).card + 1) =
        markMeasure ai * ((SUof (cellU ai)).card + 1) +
          ((SUof (cellU ai)).card + 1) := by ring
    have hphi2 : phiMeasure (passState ai) ≤ (SUof (cellU ai)).card :=
      le_trans hphiS hS
    rw [fuelOf, fuelOf, hcb']
    omega

/-! ### Termination of the fixpoint loop -/

theorem fuelOf_pos (ai : MinesweeperAI) : 1 ≤ fuelOf ai := by
  rw [fuelOf]; omega

theorem loopFuel_isSome_of_fuelOf_le :
    ∀ n : ℕ, ∀ ai : MinesweeperAI, fuelOf ai ≤ n → (loopFuel n ai).isSome := by
  intro n
  induction n with
  | zero => intro ai h; have := fuelOf_pos ai; omega
  | succ n ih =>
    intro ai h
    rw [loopFuel]
    by_cases hch : passChanged ai = true
    · rw [if_pos hch]
      have := fuelOf_lt_of_changed ai hch
      exact ih _ (by omega)
    · rw [if_neg hch]
      rfl

theorem fuelOf_le_loopFuelBound (ai : MinesweeperAI) :
    fuelOf ai ≤ loopFuelBound ai := by
  have h1 : (SUof (cellU ai)).card ≤ 2 ^ (cellU ai).card * (cellU ai).card :=
    SUof_card_le _
  have h2 : phiMeasure ai ≤ (SUof (cellU ai)).card := phi_le_card _
  have h3 : cleanBit ai ≤ 1 := cleanBit_le_one ai
  have h4 : (markMeasure ai + 1) * ((SUof (cellU ai)).card + 1) ≤
      (markMeasure ai + 1) * (2 ^ (cellU ai).card * (cellU ai).card + 1) :=
    Nat.mul_le_mul (le_refl _) (by omega)
  have h5 : (markMeasure ai + 2) * (2 ^ (cellU ai).card * (cellU ai).card + 2) =
      (markMeasure ai + 1) * (2 ^ (cellU ai).card * (cellU ai).card + 1) +
        (markMeasure ai + 2 ^ (cellU ai).card * (cellU ai).card + 3) := by ring
  rw [fuelOf, loopFuelBound]
  omega

theorem loopFuel_bound_isSome (ai : MinesweeperAI) :
    (loopFuel (loopFuelBound ai) ai).isSome :=
  loopFuel_isSome_of_fuelOf_le _ _ (fuelOf_le_loopFuelBound ai)

theorem loopFuel_mono :
    ∀ n m : ℕ, ∀ ai r, loopFuel n ai = some r → n ≤ m → loopFuel m ai = some r := by
  intro n
  induction n with
  | zero => intro m ai r h _; rw [loopFuel] at h; exact absurd h (by simp)
  | succ n ih =>
    intro m ai r h hle
    rcases m with - | m
    · omega
    rw [loopFuel] at h ⊢
    by_cases hch : passChanged ai = true
    · rw [if_pos hch] at h ⊢
      exact ih _ _ _ h (by omega)
    · rw [if_neg hch] at h ⊢
      exact h

theorem runLoop_eq_of_loopFuel_eq {n : ℕ} {ai r : MinesweeperAI}
    (h : loopFuel n ai = some r) : runLoop ai = r := by
  obtain ⟨r2, hr2⟩ := Option.isSome_iff_exists.mp (loopFuel_bound_isSome ai)
  have hN1 := loopFuel_mono _ _ _ _ h (Nat.le_max_left n (loopFuelBound ai))
  have hN2 := loopFuel_mono _ _ _ _ hr2 (Nat.le_max_right n (loopFuelBound ai))
  rw [hN1] at hN2
  rw [runLoop, hr2, Option.getD_some, Option.some.inj hN2]

/-! ### Monotonicity of the derived sets through the loop -/

theorem loopFuel_state_mono :
    ∀ n : ℕ, ∀ ai r : MinesweeperAI, loopFuel n ai = some r →
      ai.moves_made = r.moves_made ∧ ai.safes ⊆ r.safes ∧ ai.mines ⊆ r.mines := by
  intro n
  induction n with
  | zero => intro ai r h; rw [loopFuel] at h; exact absurd h (by simp)
  | succ n ih =>
    intro ai r h
    rw [loopFuel] at h
    by_cases hch : passChanged ai = true
    · rw [if_pos hch] at h
      obtain ⟨h1, h2, h3⟩ := ih _ _ h
      exact ⟨(passState_moves ai).symm.trans h1,
        (pass_safes_mono ai).trans h2, (pass_mines_mono ai).trans h3⟩
    · rw [if_neg hch] at h
      obtain rfl := Option.some.inj h
      exact ⟨(passState_moves ai).symm, pass_safes_mono ai, pass_mines_mono ai⟩

theorem runLoop_state_mono (ai : MinesweeperAI) :
    ai.moves_made = (runLoop ai).moves_made ∧
      ai.safes ⊆ (runLoop ai).safes ∧ ai.mines ⊆ (runLoop ai).mines := by
  rw [runLoop]
  rcases h : loopFuel (loopFuelBound ai) ai with - | r
  · rw [Option.getD_none]
    exact ⟨rfl, Finset.Subset.refl _, Finset.Subset.refl _⟩
  · rw [Option.getD_some]
    exact loopFuel_state_mono _ _ _ h

theorem addKnowledgePre_moves (cell : Cell) (count : ℤ) (ai : MinesweeperAI) :
    (addKnowledgePre cell count ai).moves_made = insert cell ai.moves_made := by
  rw [addKnowledgePre]
  split <;> rfl

theorem addKnowledgePre_safes (cell : Cell) (count : ℤ) (ai : MinesweeperAI) :
    (addKnowledgePre cell count ai).safes = insert cell ai.safes := by
  rw [addKnowledgePre]
  split <;> rfl

theorem addKnowledgePre_mines (cell : Cell) (count : ℤ) (ai : MinesweeperAI) :
    (addKnowledgePre cell count ai).mines = ai.mines := by
  rw [addKnowledgePre]
  split <;> rfl

theorem add_knowledge_state_mono (cell : Cell) (count : ℤ) (ai : MinesweeperAI) :
    ai.moves_made ⊆ (ai.add_knowledge cell count).moves_made ∧
      ai.safes ⊆ (ai.add_knowledge cell count).safes ∧
      ai.mines ⊆ (ai.add_knowledge cell count).mines := by
  obtain ⟨h1, h2, h3⟩ := runLoop_state_mono (addKnowledgePre cell count ai)
  rw [add_knowledge]
  refine ⟨?_, ?_, ?_⟩
  · rw [← h1, addKnowledgePre_moves]; exact Finset.subset_insert _ _
  · exact le_trans (by rw [addKnowledgePre_safes]; exact Finset.subset_insert _ _) h2
  · exact le_trans (le_of_eq (addKnowledgePre_mines cell count ai).symm) h3

theorem applyCall_moves_subset_safes (call : EngineCall) (ai : MinesweeperAI)
    (h : ai.moves_made ⊆ ai.safes) :
    (applyCall call ai).moves_made ⊆ (applyCall call ai).safes := by
  cases call with
  | markMineC c => exact h
  | markSafeC c => exact h.trans (Finset.subset_insert _ _)
  | addKnowledgeC c n =>
    obtain ⟨hmv, hsf, -⟩ := runLoop_state_mono (addKnowledgePre c n ai)
    show (ai.add_knowledge c n).moves_made ⊆ (ai.add_knowledge c n).safes
    rw [add_knowledge, ← hmv, addKnowledgePre_moves]
    exact le_trans (Finset.insert_subset_insert c h)
      (le_trans (le_of_eq (addKnowledgePre_safes c n ai).symm) hsf)
  | safeMoveC => exact h
  | randomMoveC k => exact h

/-! ### The claims -/

/-- C1: the claim states that the constraint built by `add_knowledge` has
count `count - k` where `k` is the number of Moore-neighborhood cells
already in `mines`.  The code filters the known mines out of the
neighborhood *before* computing the subtrahend, so it always subtracts 0.
Concretely: on a 3×3 engine that already knows `(0,1)` is a mine,
`add_knowledge((1,1), 1)` has `k = 1`, yet the appended constraint keeps
count `1` (the claim demands `1 - 1 = 0`). -/
theorem C1_adjusted_count_eval :
    (((initAI 3 3).mark_mine (0, 1)).add_knowledge (1, 1) 1).knowledge =
        [Sentence.mk {(0,0),(0,2),(1,0),(1,2),(2,0),(2,1),(2,2)} 1] ∧
      (neighborCells 3 3 (1, 1) ∩ ((initAI 3 3).mark_mine (0, 1)).mines).card = 1 := by
  decide

/-- C2 counterexample: the claim states that cleanup signals an error on a
contradictory constraint (`count > |cells|`).  On a state whose knowledge
holds the contradictory `({(0,0)}, 2)`, `clean_up_knowledge` returns
normally and silently removes it — no assertion or error exists on this
path. -/
theorem C2_counterexample :
    ((Sentence.mk {(0,0)} 2).cells.card : ℤ) < (Sentence.mk {(0,0)} 2).count ∧
      Sentence.mk {(0,0)} 2 ∈
        (⟨2, 2, ∅, ∅, ∅, [Sentence.mk {(0,0)} 2]⟩ : MinesweeperAI).knowledge ∧
      (MinesweeperAI.clean_up_knowledge
        ⟨2, 2, ∅, ∅, ∅, [Sentence.mk {(0,0)} 2]⟩).knowledge = [] := by
  decide

/-- C2 amended: when cleanup encounters a contradictory constraint
(`count > |cells|`), it silently filters it out of `knowledge`; cleanup is
a total function with no error path. -/
theorem C2_contradictory_silently_removed (ai : MinesweeperAI) (s : Sentence)
    (h : (s.cells.card : ℤ) < s.count) :
    s ∉ (MinesweeperAI.clean_up_knowledge ai).knowledge := by
  intro hs
  have hv := of_decide_eq_true (List.mem_filter.mp hs).2
  exact absurd hv.2.2 (not_le.mpr h)

/-- Witness for C2: the amended theorem applied to the concrete
contradictory constraint `({(0,0)}, 2)`. -/
theorem C2_witness :
    ((Sentence.mk {(0,0)} 2).cells.card : ℤ) < (Sentence.mk {(0,0)} 2).count ∧
      Sentence.mk {(0,0)} 2 ∉ (MinesweeperAI.clean_up_knowledge
        ⟨2, 2, ∅, ∅, ∅, [Sentence.mk {(0,0)} 2]⟩).knowledge :=
  ⟨by decide, C2_contradictory_silently_removed _ _ (by decide)⟩

/-- C3 counterexample: the claim states that every zero-count constraint
removed by cleanup already has an empty cell set.  Reachable scenario
(3×3 board, mine at (0,1)): after `addKnowledge((0,0),1)` and the pre-loop
steps of `addKnowledge((1,0),1)`, the first loop pass marks nothing
(both to-mark sets are empty), subset resolution then creates
`({(2,0),(2,1)}, 0)`, and cleanup discards it while its cell set is still
non-empty; consequently `(2,0)` is never added to `safes` although it is
provably safe. -/
theorem C3_counterexample :
    MinesweeperAI.minesToMark (MinesweeperAI.addKnowledgePre (1, 0) 1
        ((initAI 3 3).add_knowledge (0, 0) 1)) = ∅ ∧
      MinesweeperAI.safesToMark (MinesweeperAI.addKnowledgePre (1, 0) 1
        ((initAI 3 3).add_knowledge (0, 0) 1)) = ∅ ∧
      Sentence.mk {(2,0),(2,1)} 0 ∈
        (MinesweeperAI.infer_from_subset (MinesweeperAI.addKnowledgePre (1, 0) 1
          ((initAI 3 3).add_knowledge (0, 0) 1))).knowledge ∧
      (Sentence.mk {(2,0),(2,1)} 0).cells ≠ ∅ ∧
      Sentence.mk {(2,0),(2,1)} 0 ∉
        (MinesweeperAI.clean_up_knowledge (MinesweeperAI.infer_from_subset
          (MinesweeperAI.addKnowledgePre (1, 0) 1
            ((initAI 3 3).add_knowledge (0, 0) 1)))).knowledge ∧
      ((2,0) : Cell) ∉
        (((initAI 3 3).add_knowledge (0, 0) 1).add_knowledge (1, 0) 1).safes := by
  decide

/-- C3 amended: cleanup drops every zero-count constraint, whether or not
its cell set is empty; a zero-count constraint with non-empty cells created
by subset resolution in the same pass is discarded before its cells are
marked safe. -/
theorem C3_cleanup_drops_zero_count (ai : MinesweeperAI) (s : Sentence)
    (h : s.count = 0) : s ∉ (MinesweeperAI.clean_up_knowledge ai).knowledge := by
  intro hs
  exact absurd h (of_decide_eq_true (List.mem_filter.mp hs).2).2.1

/-- Witness for C3: the amended theorem applied to the zero-count
constraint `({(0,0)}, 0)` with a non-empty cell set. -/
theorem C3_witness :
    (Sentence.mk {(0,0)} 0).count = 0 ∧ (Sentence.mk {(0,0)} 0).cells ≠ ∅ ∧
      Sentence.mk {(0,0)} 0 ∉ (MinesweeperAI.clean_up_knowledge
        ⟨1, 1, ∅, ∅, ∅, [Sentence.mk {(0,0)} 0]⟩).knowledge :=
  ⟨by decide, by decide, C3_cleanup_drops_zero_count _ _ (by decide)⟩

/-- C4 counterexample: the claim states that no two equal constraints ever
coexist in `knowledge` after a public call.  On a 2×3 board,
`addKnowledge((0,0),1)` then `addKnowledge((1,0),1)` (consistent with a
mine at (0,1)) leaves `knowledge` holding the constraint
`({(0,1),(1,1)}, 1)` twice: `add_knowledge` appends its new sentence
without any duplicate check. -/
theorem C4_counterexample :
    (((initAI 2 3).add_knowledge (0, 0) 1).add_knowledge (1, 0) 1).knowledge =
      [Sentence.mk {(0,1),(1,1)} 1, Sentence.mk {(0,1),(1,1)} 1] := by
  decide

/-- C4 amended: subset resolution (`infer_from_subset`) never introduces a
constraint equal to one already present in `knowledge`, but `add_knowledge`
appends its newly built constraint unconditionally, so equal constraints
can coexist after a public call returns. -/
theorem C4_subset_resolution_no_duplicate (K : List Sentence) (v : Sentence)
    (h : v ∈ MinesweeperAI.inferNew K) : v ∉ K :=
  (mem_inferNew h).1

/-- Witness for C4: subset resolution on `[({(0,0),(0,1)},1),
({(0,0),(0,1),(0,2)},2)]` derives `({(0,2)},1)`, which is not already
present. -/
theorem C4_witness :
    Sentence.mk {(0,2)} 1 ∈ MinesweeperAI.inferNew
        [Sentence.mk {(0,0),(0,1)} 1, Sentence.mk {(0,0),(0,1),(0,2)} 2] ∧
      Sentence.mk {(0,2)} 1 ∉
        [Sentence.mk {(0,0),(0,1)} 1, Sentence.mk {(0,0),(0,1),(0,2)} 2] :=
  ⟨by decide, C4_subset_resolution_no_duplicate _ _ (by decide)⟩

/-- C5: for every engine state, the fixpoint loop of `add_knowledge`
terminates: some finite fuel makes the fuel-cut loop return (it halts at
the first pass that marks nothing and leaves the knowledge length
unchanged), and `runLoop` — the loop as run by `add_knowledge` — returns
exactly that fixpoint. -/
theorem C5_fixpoint_loop_terminates (ai : MinesweeperAI) :
    ∃ n r, MinesweeperAI.loopFuel n ai = some r ∧ MinesweeperAI.runLoop ai = r := by
  obtain ⟨r, hr⟩ := Option.isSome_iff_exists.mp (loopFuel_bound_isSome ai)
  exact ⟨loopFuelBound ai, r, hr, runLoop_eq_of_loopFuel_eq hr⟩

/-- C6 counterexample: the claim states that `safes` and `mines` are
disjoint after any sequence of public calls.  The sequence
`markMine((0,0)); markSafe((0,0))` from a fresh 2×2 engine leaves `(0,0)`
in both sets. -/
theorem C6_counterexample :
    ((0,0) : Cell) ∈
        (runCalls 2 2 [EngineCall.markMineC (0,0), EngineCall.markSafeC (0,0)]).safes ∧
      ((0,0) : Cell) ∈
        (runCalls 2 2 [EngineCall.markMineC (0,0), EngineCall.markSafeC (0,0)]).mines ∧
      (runCalls 2 2 [EngineCall.markMineC (0,0), EngineCall.markSafeC (0,0)]).safes ∩
        (runCalls 2 2 [EngineCall.markMineC (0,0), EngineCall.markSafeC (0,0)]).mines ≠ ∅ := by
  decide

/-- C6 amended: after any sequence of public engine calls from a fresh
engine, `movesMade ⊆ safes` holds; `safes` and `mines` need not be
disjoint (marking the same cell both ways leaves it in both sets). -/
theorem C6_moves_subset_safes (height width : ℕ) (calls : List EngineCall) :
    (runCalls height width calls).moves_made ⊆ (runCalls height width calls).safes := by
  rw [runCalls]
  have hgen : ∀ (cs : List EngineCall) (ai : MinesweeperAI),
      ai.moves_made ⊆ ai.safes →
      (cs.foldl (fun t c => applyCall c t) ai).moves_made ⊆
        (cs.foldl (fun t c => applyCall c t) ai).safes := by
    intro cs
    induction cs with
    | nil => intro ai h; exact h
    | cons c cs ih =>
      intro ai h
      exact ih _ (applyCall_moves_subset_safes c ai h)
  exact hgen calls _ (Finset.empty_subset _)

/-- C7: on a 3×3 board (single mine at (2,2), consistent with the reported
count 0), calling `addKnowledge((0,0), 0)` on a fresh engine puts (0,1),
(1,0) and (1,1) into `safes`. -/
theorem C7_first_reveal_safes :
    ((0,1) : Cell) ∈ ((initAI 3 3).add_knowledge (0, 0) 0).safes ∧
      ((1,0) : Cell) ∈ ((initAI 3 3).add_knowledge (0, 0) 0).safes ∧
      ((1,1) : Cell) ∈ ((initAI 3 3).add_knowledge (0, 0) 0).safes := by
  decide

/-- C8: `Sentence.mark_mine c` removes `c` from the cells and decrements
the count by exactly 1 when `c` is present (count unchanged otherwise);
`Sentence.mark_safe c` removes `c` leaving the count unchanged; for a cell
not in the constraint both are no-ops (cells and count unchanged, since
erasing an absent cell is the identity). -/
theorem C8_sentence_marking (s : Sentence) (c : Cell) :
    (s.mark_mine c).cells = s.cells.erase c ∧
      (s.mark_mine c).count = (if c ∈ s.cells then s.count - 1 else s.count) ∧
      c ∉ (s.mark_mine c).cells ∧
      (s.mark_safe c).cells = s.cells.erase c ∧
      (s.mark_safe c).count = s.count ∧
      c ∉ (s.mark_safe c).cells := by
  unfold Sentence.mark_mine Sentence.mark_safe
  by_cases h : c ∈ s.cells
  · simp [h, Finset.not_mem_erase]
  · simp [h, Finset.erase_eq_self.mpr h]

/-- C9 counterexample: the claim states `knownMines()` is non-empty iff
`count == |cells|` and `knownSafes()` is non-empty iff `count == 0`.  At
the constraint `(∅, 0)` both right-hand sides hold while both returned
sets are empty, so the stated iffs fail. -/
theorem C9_counterexample :
    ¬(((Sentence.mk (∅ : Finset Cell) 0).known_mines.Nonempty ↔
        ((Sentence.mk (∅ : Finset Cell) 0).cells.card : ℤ) =
          (Sentence.mk (∅ : Finset Cell) 0).count) ∧
      ((Sentence.mk (∅ : Finset Cell) 0).known_safes.Nonempty ↔
        (Sentence.mk (∅ : Finset Cell) 0).count = 0)) := by
  decide

/-- C9 amended: `knownMines()` is non-empty iff `count == |cells|` and the
cell set is non-empty; `knownSafes()` is non-empty iff `count == 0` and the
cell set is non-empty; at `count == 0, |cells| == 0` both return the empty
set. -/
theorem C9_known_sets (s : Sentence) :
    (s.known_mines.Nonempty ↔
        ((s.cells.card : ℤ) = s.count ∧ s.cells.Nonempty)) ∧
      (s.known_safes.Nonempty ↔ (s.count = 0 ∧ s.cells.Nonempty)) ∧
      (Sentence.mk (∅ : Finset Cell) 0).known_mines = ∅ ∧
      (Sentence.mk (∅ : Finset Cell) 0).known_safes = ∅ := by
  refine ⟨?_, ?_, by decide, by decide⟩
  · unfold Sentence.known_mines
    by_cases h : (s.cells.card : ℤ) = s.count
    · rw [if_pos h]
      exact ⟨fun hne => ⟨h, hne⟩, fun h2 => h2.2⟩
    · rw [if_neg h]
      constructor
      · rintro ⟨x, hx⟩
        exact absurd hx (Finset.not_mem_empty x)
      · rintro ⟨h1, -⟩
        exact absurd h1 h
  · unfold Sentence.known_safes
    by_cases h : s.count = 0
    · rw [if_pos h]
      exact ⟨fun hne => ⟨h, hne⟩, fun h2 => h2.2⟩
    · rw [if_neg h]
      constructor
      · rintro ⟨x, hx⟩
        exact absurd hx (Finset.not_mem_empty x)
      · rintro ⟨h1, -⟩
        exact absurd h1 h

/-- C10: the resolved sets only grow: every public operation (markMine,
markSafe, addKnowledge, and the two pure move-selector queries) maps each
of `safes`, `mines` and `movesMade` to a superset of its previous value. -/
theorem C10_resolved_sets_monotone (call : EngineCall) (ai : MinesweeperAI) :
    ai.safes ⊆ (applyCall call ai).safes ∧
      ai.mines ⊆ (applyCall call ai).mines ∧
      ai.moves_made ⊆ (applyCall call ai).moves_made := by
  cases call with
  | markMineC c =>
    exact ⟨Finset.Subset.refl _, Finset.subset_insert _ _, Finset.Subset.refl _⟩
  | markSafeC c =>
    exact ⟨Finset.subset_insert _ _, Finset.Subset.refl _, Finset.Subset.refl _⟩
  | addKnowledgeC c n =>
    obtain ⟨h1, h2, h3⟩ := add_knowledge_state_mono c n ai
    exact ⟨h2, h3, h1⟩
  | safeMoveC =>
    exact ⟨Finset.Subset.refl _, Finset.Subset.refl _, Finset.Subset.refl _⟩
  | randomMoveC k =>
    exact ⟨Finset.Subset.refl _, Finset.Subset.refl _, Finset.Subset.refl _⟩
